import Mathlib

/-!
Verification of the Weather-RAG assistant pipeline.

Strings from the Python source are modelled as `List Char`.  Python's
`str` helpers used by the code (`strip`, `lower`, `title`, `split`,
slicing with clamping and negative indices, `rfind`, `in`,
`re.sub(r'\s+', ' ', _)`, `re.findall(r'\w+', _)`) are given executable
models below, and each function of the repository that the claims touch
(`chunk_text`, `_classify_query`, `_extract_city_from_query`,
`_get_weather`'s default-city logic, the four `_evaluate_*` heuristics,
`evaluate_response`, `add_documents`, `process_query`) is translated
directly from its source.  The `while` loop of `chunk_text` may fail to
terminate, so it is embedded with explicit fuel and an `Option` result:
`none` means the fuel ran out while the loop was still running.
-/

set_option maxHeartbeats 1000000

/-- Python whitespace test used by `str.strip` / `str.split` / `\s`. -/
def ws (c : Char) : Bool := c.isWhitespace

/-- The space character (U+0020) that `re.sub(r'\s+', ' ', text)` inserts. -/
def spaceChar : Char := Char.ofNat 32

/-- Model of Python `str.lstrip()` on `List Char`. -/
def lstrip (l : List Char) : List Char := l.dropWhile ws

/-- Model of Python `str.rstrip()` on `List Char`. -/
def rstrip (l : List Char) : List Char := (l.reverse.dropWhile ws).reverse

/-- Model of Python `str.strip()` on `List Char`. -/
def stripWS (l : List Char) : List Char := rstrip (lstrip l)

/-- Helper for `squeezeWS`: `inRun` records whether we are inside a
whitespace run whose single replacement space was already emitted. -/
def squeezeAux : Bool → List Char → List Char
  | _, [] => []
  | inRun, c :: cs =>
    if ws c then
      if inRun then squeezeAux true cs else spaceChar :: squeezeAux true cs
    else c :: squeezeAux false cs

/-- Model of `re.sub(r'\s+', ' ', text)`: every maximal run of whitespace
characters is replaced by a single space. -/
def squeezeWS (l : List Char) : List Char := squeezeAux false l

/-- The text cleaning step of `chunk_text`:
`text = re.sub(r'\s+', ' ', text).strip()`. -/
def normalizeText (l : List Char) : List Char := stripWS (squeezeWS l)

/-- Effective index of a Python slice bound `i` on a string of length `n`:
negative indices count from the end, and bounds are clamped to `[0, n]`. -/
def sliceIdx (n : Nat) (i : Int) : Nat :=
  if i < 0 then ((n : Int) + i).toNat else min i.toNat n

/-- Model of the Python slice `l[a:b]` (with clamping and negative indices). -/
def pySlice (l : List Char) (a b : Int) : List Char :=
  (l.take (sliceIdx l.length b)).drop (sliceIdx l.length a)

/-- Index of the last occurrence of `c`, if any. -/
def lastIdxOf : List Char → Char → Option Nat
  | [], _ => none
  | a :: as, c =>
    match lastIdxOf as c with
    | some j => some (j + 1)
    | none => if a = c then some 0 else none

/-- Model of Python `l.rfind(c, a, b)`: the absolute index of the last
occurrence of `c` in the slice `l[a:b]`, or `-1` if there is none. -/
def pyRfind (l : List Char) (c : Char) (a b : Int) : Int :=
  match lastIdxOf (pySlice l a b) c with
  | some j => (sliceIdx l.length a : Int) + j
  | none => -1

/-- Model of Python's substring test `sub in s`. -/
def containsSub (sub : List Char) : List Char → Bool
  | [] => sub.isEmpty
  | c :: cs => sub.isPrefixOf (c :: cs) || containsSub sub cs

/-- Model of Python `str.lower()` (ASCII-faithful). -/
def pyLower (l : List Char) : List Char := l.map Char.toLower

/-- A `\w` word character of Python's `re` module (ASCII-faithful). -/
def isWordChar (c : Char) : Bool := c.isAlphanum || c = '_'

/-- Helper for `runsBy`: `cur` is the reversed current run of characters
satisfying `p`. -/
def runsByAux (p : Char → Bool) : List Char → List Char → List (List Char)
  | cur, [] => if cur = [] then [] else [cur.reverse]
  | cur, c :: cs =>
    if p c then runsByAux p (c :: cur) cs
    else if cur = [] then runsByAux p [] cs
    else cur.reverse :: runsByAux p [] cs

/-- Maximal runs of characters satisfying `p`, in order.  `runsBy isWordChar`
models `re.findall(r'\w+', s)` and `runsBy (fun c => !ws c)` models
`str.split()` with no arguments. -/
def runsBy (p : Char → Bool) (l : List Char) : List (List Char) :=
  runsByAux p [] l

/-! ## The chunker (`src/pdf_processor.py`, `PDFProcessor.chunk_text`) -/

/-- The window end computed by one iteration of `chunk_text`'s loop:
`end = start + chunk_size`, shrunk to just after the last `'.'` of the
window when that period lies in the second half of the window and the
window is not the final one. -/
def chunkEnd (t : List Char) (cs : Nat) (start : Int) : Int :=
  let end0 : Int := start + (cs : Int)
  if end0 < (t.length : Int) then
    if pyRfind t '.' start end0 > start + ((cs / 2 : Nat) : Int) then
      pyRfind t '.' start end0 + 1
    else end0
  else end0

/-- One-to-one translation of the `while start < len(text)` loop of
`chunk_text`, with explicit `fuel`; `none` means the fuel was exhausted
while the loop was still running (so the Python loop runs longer than
`fuel` iterations at this state). -/
def chunkLoop (t : List Char) (cs ov : Nat) : Int → Nat → Option (List (List Char))
  | _, 0 => none
  | start, fuel + 1 =>
    if start < (t.length : Int) then
      let chunk := stripWS (pySlice t start (chunkEnd t cs start))
      let start2 := chunkEnd t cs start - (ov : Int)
      let tail :=
        if (t.length : Int) ≤ start2 then some []
        else chunkLoop t cs ov start2 fuel
      tail.map (fun l => if chunk = [] then l else chunk :: l)
    else some []

/-- `PDFProcessor.chunk_text(text, chunk_size, overlap)`.  The fuel
`length + 1` is enough for every terminating run, because a terminating
run advances `start` by at least one character per iteration. -/
def chunk_text (text : List Char) (cs ov : Nat) : Option (List (List Char)) :=
  if text = [] then some []
  else chunkLoop (normalizeText text) cs ov 0 ((normalizeText text).length + 1)

/-- Concatenation of the chunks with the first `ov` characters of every
chunk after the first removed (the reconstruction of claim C4). -/
def reconAll (ov : Nat) (l : List (List Char)) : List Char :=
  (l.map (List.drop ov)).flatten

/-- Reconstruction of the source text from overlapping chunks: the first
chunk in full, every later chunk with its `ov`-character overlap prefix
removed. -/
def recon (ov : Nat) : List (List Char) → List Char
  | [] => []
  | h :: rest => h ++ reconAll ov rest

/-! ## The query classifier (`src/ai_pipeline.py`, `AIPipeline._classify_query`) -/

/-- The fixed weather keyword list of `_classify_query`. -/
def weather_keywords : List (List Char) :=
  ["weather".toList, "temperature".toList, "forecast".toList, "humidity".toList,
   "wind".toList, "rain".toList, "snow".toList, "sunny".toList, "cloudy".toList,
   "hot".toList, "cold".toList, "degrees".toList, "celsius".toList,
   "fahrenheit".toList, "precipitation".toList, "atmosphere".toList, "aqi".toList,
   "air quality".toList, "pollution".toList, "air quality index".toList]

/-- `_classify_query`: the `query_type` it stores in the state. -/
def classify_query (q : List Char) : List Char :=
  if weather_keywords.any (fun k => containsSub k (pyLower q)) then "weather".toList
  else "rag".toList

/-! ## City extraction (`AIPipeline._extract_city_from_query` and the
default-city logic of `AIPipeline._get_weather`) -/

/-- The gazetteer of `_extract_city_from_query`, in source order. -/
def cities : List (List Char) :=
  ["london".toList, "new york".toList, "tokyo".toList, "paris".toList,
   "berlin".toList, "moscow".toList, "beijing".toList, "sydney".toList,
   "toronto".toList, "vancouver".toList, "san francisco".toList,
   "los angeles".toList, "chicago".toList, "miami".toList, "boston".toList,
   "seattle".toList, "denver".toList, "phoenix".toList, "dallas".toList,
   "houston".toList, "atlanta".toList,
   "delhi".toList, "mumbai".toList, "bangalore".toList, "chennai".toList,
   "kolkata".toList, "hyderabad".toList, "pune".toList, "ahmedabad".toList,
   "jaipur".toList, "lucknow".toList, "kanpur".toList, "nagpur".toList,
   "indore".toList, "thane".toList, "bhopal".toList, "visakhapatnam".toList,
   "patna".toList, "vadodara".toList, "ghaziabad".toList, "ludhiana".toList]

/-- `WeatherService.get_indian_cities_list()`: the keys of the
`indian_cities` coordinate table, in source order. -/
def indian_cities : List (List Char) :=
  ["delhi".toList, "mumbai".toList, "bangalore".toList, "chennai".toList,
   "kolkata".toList, "hyderabad".toList, "pune".toList, "ahmedabad".toList,
   "jaipur".toList, "lucknow".toList, "kanpur".toList, "nagpur".toList,
   "indore".toList, "thane".toList, "bhopal".toList, "visakhapatnam".toList,
   "patna".toList, "vadodara".toList, "ghaziabad".toList, "ludhiana".toList]

/-- Helper for `pyTitle`: the flag records whether the previous character
was alphabetic (a cased letter, ASCII-faithful). -/
def titleAux : Bool → List Char → List Char
  | _, [] => []
  | prevAlpha, c :: cs =>
    (if c.isAlpha then (if prevAlpha then c.toLower else c.toUpper) else c) ::
      titleAux c.isAlpha cs

/-- Model of Python `str.title()` (ASCII-faithful). -/
def pyTitle (l : List Char) : List Char := titleAux false l

/-- Try the regex `LIT(\w+)` at the start of `s` (a literal followed by a
captured maximal word-character run, as in `weather in (\w+)`). -/
def litCapAt (lit s : List Char) : Option (List Char) :=
  if lit.isPrefixOf s then
    let w := (s.drop lit.length).takeWhile isWordChar
    if w = [] then none else some w
  else none

/-- `re.search` for a pattern `LIT(\w+)`: leftmost position where the
literal matches and at least one word character follows. -/
def searchLitCap (lit : List Char) : List Char → Option (List Char)
  | [] => none
  | c :: cs =>
    match litCapAt lit (c :: cs) with
    | some w => some w
    | none => searchLitCap lit cs

/-- Try the regex `(\w+)LIT` at the start of `s`.  Since each literal used
by the code starts with a space (not a word character), the greedy `\w+`
can only match the full word-character run. -/
def capLitAt (lit s : List Char) : Option (List Char) :=
  let w := s.takeWhile isWordChar
  if w = [] then none
  else if lit.isPrefixOf (s.drop w.length) then some w else none

/-- `re.search` for a pattern `(\w+)LIT`, leftmost match. -/
def searchCapLit (lit : List Char) : List Char → Option (List Char)
  | [] => none
  | c :: cs =>
    match capLitAt lit (c :: cs) with
    | some w => some w
    | none => searchCapLit lit cs

/-- The regex fallback of `_extract_city_from_query`: the five patterns
`weather in (\w+)`, `temperature in (\w+)`, `forecast for (\w+)`,
`(\w+) weather`, `(\w+) temperature`, tried in source order. -/
def regexExtract (ql : List Char) : Option (List Char) :=
  (searchLitCap ("weather in ".toList) ql).orElse fun _ =>
  (searchLitCap ("temperature in ".toList) ql).orElse fun _ =>
  (searchLitCap ("forecast for ".toList) ql).orElse fun _ =>
  (searchCapLit (" weather".toList) ql).orElse fun _ =>
  searchCapLit (" temperature".toList) ql

/-- `AIPipeline._extract_city_from_query`. -/
def extract_city_from_query (q : List Char) : List Char :=
  let ql := pyLower q
  match cities.find? (fun c => containsSub c ql) with
  | some c => pyTitle c
  | none =>
    match regexExtract ql with
    | some w => pyTitle w
    | none => []

/-- The city `_get_weather` passes to the weather service: the extracted
city if non-empty, else `"delhi"` when an Indian-city token occurs in the
lower-cased query, else `"London"`. -/
def get_weather_city (q : List Char) : List Char :=
  let ql := pyLower q
  let city := extract_city_from_query q
  if city ≠ [] then city
  else if indian_cities.any (fun ic => containsSub ic ql) then "delhi".toList
  else "London".toList

/-- The city-determination order as the specification words it (claim C7):
first gazetteer hit title-cased, else first regex capture title-cased,
else the default city, which is `"Delhi"` if any Indian-city gazetteer
token appears anywhere in the query and `"London"` otherwise. -/
def get_weather_city_spec (q : List Char) : List Char :=
  let ql := pyLower q
  match cities.find? (fun c => containsSub c ql) with
  | some c => pyTitle c
  | none =>
    match regexExtract ql with
    | some w => pyTitle w
    | none =>
      if indian_cities.any (fun ic => containsSub ic ql) then "Delhi".toList
      else "London".toList

/-! ## The response evaluator (`src/evaluation_service.py`) -/

/-- The failure vocabulary of `_evaluate_accuracy`. -/
def failure_words : List (List Char) :=
  ["error".toList, "failed".toList, "unavailable".toList, "limitation".toList]

/-- The weather-metric indicators of `_evaluate_accuracy`. -/
def weather_indicators : List (List Char) :=
  ["temperature".toList, "humidity".toList, "wind".toList, "pressure".toList,
   "°c".toList, "°f".toList]

/-- `EvaluationService._evaluate_accuracy`. -/
def evaluate_accuracy (_query response query_type : List Char) : Nat :=
  if response = [] ∨ stripWS response = [] then 1
  else if failure_words.any (fun w => containsSub w (pyLower response)) then 2
  else if query_type = "weather".toList then
    if weather_indicators.any (fun w => containsSub w (pyLower response)) then 4
    else 3
  else if query_type = "rag".toList then
    if containsSub ("document".toList) (pyLower response) ||
        containsSub ("chunk".toList) (pyLower response) then 4
    else 3
  else 3

/-- The distinct `\w+` tokens of a string (`set(re.findall(r'\w+', s))`). -/
def wordSet (s : List Char) : List (List Char) := (runsBy isWordChar s).dedup

/-- `len(query_words.intersection(response_words))` of
`_evaluate_relevance`. -/
def overlapCount (query response : List Char) : Nat :=
  ((wordSet (pyLower query)).filter
    (fun w => (wordSet (pyLower response)).contains w)).length

/-- `EvaluationService._evaluate_relevance`. -/
def evaluate_relevance (query response _query_type : List Char) : Nat :=
  if response = [] then 1
  else
    let overlap := overlapCount query response
    if overlap > 0 then min 5 (3 + overlap) else 3

/-- `EvaluationService._evaluate_completeness`. -/
def evaluate_completeness (_query response _query_type : List Char) : Nat :=
  if response = [] then 1
  else
    let word_count := (runsBy (fun c => !ws c) response).length
    if word_count < 10 then 2
    else if word_count < 50 then 3
    else if word_count < 200 then 4
    else 5

/-- `EvaluationService._evaluate_clarity`. -/
def evaluate_clarity (response : List Char) : Nat :=
  if response = [] then 1
  else
    let has_headers :=
      containsSub ("#".toList) response || containsSub ("**".toList) response
    let has_structure :=
      ["•".toList, "-".toList, "*".toList, "1.".toList, "2.".toList].any
        (fun m => containsSub m response)
    let has_paragraphs := containsSub ("\n\n".toList) response
    min 5 (3 + (if has_headers then 1 else 0) + (if has_structure then 1 else 0)
      + (if has_paragraphs then 1 else 0))

/-- The evaluation record produced by `evaluate_response`. -/
structure Evaluation where
  accuracy : Nat
  relevance : Nat
  completeness : Nat
  clarity : Nat
  overall_score : ℚ
  feedback : List (List Char)
deriving DecidableEq

/-- `EvaluationService._generate_feedback`. -/
def generate_feedback (accuracy relevance completeness clarity : Nat)
    (overall : ℚ) : List (List Char) :=
  (if accuracy < 3 then ["⚠️ Response accuracy could be improved".toList] else [])
  ++ (if relevance < 3 then
        ["⚠️ Response could be more relevant to the query".toList] else [])
  ++ (if completeness < 3 then
        ["⚠️ Response could be more comprehensive".toList] else [])
  ++ (if clarity < 3 then
        ["⚠️ Response could be clearer and better formatted".toList] else [])
  ++ [if overall ≥ 4 then "✅ Excellent response quality".toList
      else if overall ≥ 3 then "✅ Good response quality".toList
      else "⚠️ Response quality needs improvement".toList]

/-- `EvaluationService.evaluate_response` (the non-exceptional path; every
sub-evaluator is total, so the `except` fallback is unreachable here). -/
def evaluate_response (user_query response query_type : List Char) : Evaluation :=
  let a := evaluate_accuracy user_query response query_type
  let r := evaluate_relevance user_query response query_type
  let c := evaluate_completeness user_query response query_type
  let cl := evaluate_clarity response
  let overall : ℚ := ((a : ℚ) + (r : ℚ) + (c : ℚ) + (cl : ℚ)) / 4
  { accuracy := a, relevance := r, completeness := c, clarity := cl,
    overall_score := overall,
    feedback := generate_feedback a r c cl overall }

/-! ## The vector store (`src/vector_store.py`, `VectorStore.add_documents`) -/

/-- An input document of `add_documents` (its `content` and `source` keys;
the free-form `metadata` dict is irrelevant to the claims). -/
structure StoreDoc where
  content : List Char
  source : Option (List Char)
deriving DecidableEq

/-- A Qdrant `PointStruct` as built by `add_documents`. -/
structure StorePoint where
  id : List Char
  vector : List Int
  payload_content : List Char
  payload_source : List Char
deriving DecidableEq

/-- The external calls `add_documents` makes, in order. -/
inductive CallEvent where
  | embedCall
  | upsertCall
deriving DecidableEq

/-- `VectorStore.add_documents`.  The external embedding provider is the
function `embed`; `uuid i` is the `uuid.uuid4()` drawn on the `i`-th loop
iteration.  The returned list of `CallEvent`s records which external
systems were contacted. -/
def add_documents (documents : List StoreDoc)
    (embed : List (List Char) → List (List Int))
    (uuid : Nat → List Char) : List (List Char) × List CallEvent :=
  if documents = [] then ([], [])
  else
    let texts := documents.map (fun d => d.content)
    let embeddings := embed texts
    let points := (documents.zip embeddings).enum.map
      (fun p => ({ id := uuid p.1, vector := p.2.2,
                   payload_content := p.2.1.content,
                   payload_source := p.2.1.source.getD ("unknown".toList) }
                 : StorePoint))
    (points.map (fun pt => pt.id), [CallEvent.embedCall, CallEvent.upsertCall])

/-! ## The orchestrator entry point (`AIPipeline.process_query`) -/

/-- The LangGraph state dict (`AgentState` of `src/ai_pipeline.py`). -/
structure AgentState where
  user_query : List Char
  query_type : List Char
  weather_data : List ((List Char) × (List Char))
  retrieved_docs : List (List Char)
  response : List Char
  evaluation : Option Evaluation

/-- The initial state built by `process_query`. -/
def initial_state (q : List Char) : AgentState :=
  { user_query := q, query_type := [], weather_data := [],
    retrieved_docs := [], response := [], evaluation := none }

/-- The result dict of `process_query`; field values that a branch does
not set are `none` / `[]`. -/
structure PipelineResult where
  error : Option (List Char)
  query : List Char
  query_type : Option (List Char)
  response : List Char
  evaluation : Option Evaluation
  weather_data : List ((List Char) × (List Char))
  retrieved_docs : List (List Char)

/-- `AIPipeline.process_query`.  `invoke` is `self.graph.invoke`, which may
raise (`Except.error`); the `try/except` of `process_query` converts any
such failure into a result dict with an `error` field and an apology
response instead of propagating it. -/
def process_query (user_query : List Char)
    (invoke : AgentState → Except (List Char) AgentState) : PipelineResult :=
  match invoke (initial_state user_query) with
  | Except.ok r =>
    { error := none, query := r.user_query, query_type := some r.query_type,
      response := r.response, evaluation := r.evaluation,
      weather_data := r.weather_data, retrieved_docs := r.retrieved_docs }
  | Except.error e =>
    { error := some (("Pipeline error: ".toList) ++ e), query := user_query,
      query_type := none,
      response := "Sorry, I encountered an error processing your request.".toList,
      evaluation := none, weather_data := [], retrieved_docs := [] }

/-- The input on which claim C1's termination property fails:
`chunk_text("abcdef.xxxxxxxxx", chunk_size=10, overlap=7)`. -/
def c1Text : List Char := "abcdef.xxxxxxxxx".toList

/-! ## Helper lemmas: `dropWhile`, stripping, normalization -/

theorem dropWhile_head_false {p : Char → Bool} :
    ∀ {l : List Char} {a : Char} {as : List Char},
      l.dropWhile p = a :: as → p a = false := by
  intro l
  induction l with
  | nil => intro a as h; simp [List.dropWhile] at h
  | cons c cs ih =>
    intro a as h
    by_cases hc : p c
    · rw [List.dropWhile_cons_of_pos hc] at h
      exact ih h
    · rw [List.dropWhile_cons_of_neg hc] at h
      obtain ⟨rfl, -⟩ := List.cons.injEq .. ▸ h
      simpa using hc

theorem dropWhile_dropWhile (p : Char → Bool) (l : List Char) :
    (l.dropWhile p).dropWhile p = l.dropWhile p := by
  cases e : l.dropWhile p with
  | nil => rfl
  | cons a as =>
    have ha : p a = false := dropWhile_head_false e
    rw [List.dropWhile_cons_of_neg (by simp [ha])]

theorem dropWhile_eq_nil_of_forall {p : Char → Bool} {l : List Char}
    (h : ∀ c ∈ l, p c = true) : l.dropWhile p = [] := by
  induction l with
  | nil => rfl
  | cons c cs ih =>
    rw [List.dropWhile_cons_of_pos (h c (by simp))]
    exact ih fun c hc => h c (by simp [hc])

theorem dropWhile_eq_self_of_forall {p : Char → Bool} {l : List Char}
    (h : ∀ c ∈ l, p c = false) : l.dropWhile p = l := by
  cases l with
  | nil => rfl
  | cons c cs =>
    rw [List.dropWhile_cons_of_neg (by simp [h c (by simp)])]

theorem rstrip_append_eq (l : List Char) :
    rstrip l ++ (l.reverse.takeWhile ws).reverse = l := by
  unfold rstrip
  rw [← List.reverse_append, List.takeWhile_append_dropWhile, List.reverse_reverse]

theorem lstrip_rstrip_lstrip (l : List Char) :
    lstrip (rstrip (lstrip l)) = rstrip (lstrip l) := by
  cases e : rstrip (lstrip l) with
  | nil => rfl
  | cons a as =>
    have hz : lstrip l = a :: (as ++ ((lstrip l).reverse.takeWhile ws).reverse) := by
      conv_lhs => rw [← rstrip_append_eq (lstrip l)]
      rw [e, List.cons_append]
    have ha : ws a = false := dropWhile_head_false (p := ws) (l := l) hz
    show List.dropWhile ws (a :: as) = a :: as
    rw [List.dropWhile_cons_of_neg (by simp [ha])]

theorem rstrip_rstrip (l : List Char) : rstrip (rstrip l) = rstrip l := by
  show ((rstrip l).reverse.dropWhile ws).reverse = rstrip l
  unfold rstrip
  rw [List.reverse_reverse, dropWhile_dropWhile]

theorem stripWS_stripWS (l : List Char) : stripWS (stripWS l) = stripWS l := by
  show rstrip (lstrip (rstrip (lstrip l))) = rstrip (lstrip l)
  rw [lstrip_rstrip_lstrip, rstrip_rstrip]

theorem stripWS_normalizeText (l : List Char) :
    stripWS (normalizeText l) = normalizeText l := stripWS_stripWS _

theorem stripWS_of_no_ws {l : List Char} (h : ∀ c ∈ l, ws c = false) :
    stripWS l = l := by
  have h1 : lstrip l = l := dropWhile_eq_self_of_forall h
  show rstrip (lstrip l) = l
  rw [h1]
  show (l.reverse.dropWhile ws).reverse = l
  rw [dropWhile_eq_self_of_forall fun c hc => h c (List.mem_reverse.mp hc),
    List.reverse_reverse]

theorem stripWS_of_all_ws {l : List Char} (h : ∀ c ∈ l, ws c = true) :
    stripWS l = [] := by
  show rstrip (lstrip l) = []
  rw [show lstrip l = [] from dropWhile_eq_nil_of_forall h]
  rfl

theorem stripWS_length_le (l : List Char) : (stripWS l).length ≤ l.length := by
  have h1 : (lstrip l).length ≤ l.length := (l.dropWhile_sublist ws).length_le
  have h2 : (rstrip (lstrip l)).length ≤ (lstrip l).length := by
    show ((lstrip l).reverse.dropWhile ws).reverse.length ≤ _
    rw [List.length_reverse]
    calc ((lstrip l).reverse.dropWhile ws).length
        ≤ (lstrip l).reverse.length := ((lstrip l).reverse.dropWhile_sublist ws).length_le
      _ = (lstrip l).length := List.length_reverse _
  exact le_trans h2 h1

theorem squeezeAux_of_no_ws {l : List Char} (h : ∀ c ∈ l, ws c = false) :
    ∀ b, squeezeAux b l = l := by
  induction l with
  | nil => intro b; rfl
  | cons c cs ih =>
    intro b
    unfold squeezeAux
    rw [if_neg (by simp [h c (by simp)])]
    rw [ih fun x hx => h x (by simp [hx])]

theorem normalizeText_of_no_ws {l : List Char} (h : ∀ c ∈ l, ws c = false) :
    normalizeText l = l := by
  show stripWS (squeezeWS l) = l
  rw [show squeezeWS l = l from squeezeAux_of_no_ws h false]
  exact stripWS_of_no_ws h

/-! ## Helper lemmas: Python slices and `rfind` -/

theorem sliceIdx_le (n : Nat) (i : Int) : sliceIdx n i ≤ n := by
  unfold sliceIdx
  split <;> omega

theorem sliceIdx_natCast (n s : Nat) : sliceIdx n (s : Int) = min s n := by
  unfold sliceIdx
  rw [if_neg (by omega)]
  simp

theorem sliceIdx_add_le (n : Nat) (a : Int) (k : Nat) :
    sliceIdx n (a + (k : Int)) ≤ sliceIdx n a + k := by
  unfold sliceIdx
  by_cases h1 : a + (k : Int) < 0
  · rw [if_pos h1]
    by_cases h2 : a < 0
    · rw [if_pos h2]; omega
    · rw [if_neg h2]; omega
  · rw [if_neg h1]
    by_cases h2 : a < 0
    · rw [if_pos h2]
      have := Nat.min_le_left (a + (k : Int)).toNat n
      have := Nat.min_le_right (a + (k : Int)).toNat n
      omega
    · rw [if_neg h2]
      rcases Nat.le_total a.toNat n with h3 | h3
      · rw [Nat.min_eq_left h3]
        have := Nat.min_le_left (a + (k : Int)).toNat n
        omega
      · rw [Nat.min_eq_right h3]
        have := Nat.min_le_right (a + (k : Int)).toNat n
        omega

theorem length_pySlice (l : List Char) (a b : Int) :
    (pySlice l a b).length = sliceIdx l.length b - sliceIdx l.length a := by
  unfold pySlice
  rw [List.length_drop, List.length_take,
    Nat.min_eq_left (sliceIdx_le l.length b)]

theorem drop_take_comm (l : List Char) (a b : Nat) :
    (l.take b).drop a = (l.drop a).take (b - a) := by
  rcases Nat.le_total a b with h | h
  · rw [List.take_drop, Nat.add_sub_cancel' h]
  · rw [Nat.sub_eq_zero_of_le h, List.take_zero]
    apply List.drop_eq_nil_of_le
    rw [List.length_take]
    omega

theorem pySlice_natCast (l : List Char) (s e : Nat) :
    pySlice l (s : Int) (e : Int) = (l.drop s).take (e - s) := by
  unfold pySlice
  rw [sliceIdx_natCast, sliceIdx_natCast, drop_take_comm]
  rcases Nat.le_total s l.length with hs | hs
  · rw [Nat.min_eq_left hs]
    rcases Nat.le_total e l.length with he | he
    · rw [Nat.min_eq_left he]
    · rw [Nat.min_eq_right he]
      have hlen : (l.drop s).length = l.length - s := List.length_drop ..
      rw [List.take_of_length_le (by omega), List.take_of_length_le (by omega)]
  · rw [Nat.min_eq_right hs, List.drop_eq_nil_of_le hs,
      List.drop_eq_nil_of_le (Nat.le_refl l.length)]
    simp

theorem lastIdxOf_lt_length :
    ∀ {l : List Char} {c : Char} {j : Nat}, lastIdxOf l c = some j → j < l.length := by
  intro l
  induction l with
  | nil => intro c j h; simp [lastIdxOf] at h
  | cons a as ih =>
    intro c j h
    unfold lastIdxOf at h
    cases e : lastIdxOf as c with
    | some j' =>
      rw [e] at h
      obtain rfl : j = j' + 1 := by simpa using h.symm
      have := ih e
      simp
      omega
    | none =>
      rw [e] at h
      by_cases hac : a = c
      · rw [if_pos hac] at h
        obtain rfl : j = 0 := by simpa using h.symm
        simp
      · rw [if_neg hac] at h
        simp at h

theorem lastIdxOf_eq_none {l : List Char} {c : Char} (h : c ∉ l) :
    lastIdxOf l c = none := by
  induction l with
  | nil => rfl
  | cons a as ih =>
    unfold lastIdxOf
    rw [ih (fun hmem => h (by simp [hmem]))]
    rw [if_neg (fun hac => h (by simp [hac]))]

theorem pySlice_subset (l : List Char) (a b : Int) : pySlice l a b ⊆ l :=
  fun _ hc =>
    (l.take_subset (sliceIdx l.length b))
      ((l.take (sliceIdx l.length b)).drop_subset (sliceIdx l.length a) hc)

theorem pyRfind_not_mem {l : List Char} {c : Char} (h : c ∉ l) (a b : Int) :
    pyRfind l c a b = -1 := by
  unfold pyRfind
  rw [lastIdxOf_eq_none (fun hmem => h (pySlice_subset l a b hmem))]

/-! ## Helper lemmas: the chunker loop -/

theorem chunkLoop_succ (t : List Char) (cs ov : Nat) (start : Int) (n : Nat) :
    chunkLoop t cs ov start (n + 1) =
      if start < (t.length : Int) then
        (if (t.length : Int) ≤ chunkEnd t cs start - (ov : Int) then some []
         else chunkLoop t cs ov (chunkEnd t cs start - (ov : Int)) n).map
          (fun l =>
            if stripWS (pySlice t start (chunkEnd t cs start)) = [] then l
            else stripWS (pySlice t start (chunkEnd t cs start)) :: l)
      else some [] := rfl

theorem sliceIdx_chunkEnd_le (t : List Char) (cs : Nat) (start : Int) :
    sliceIdx t.length (chunkEnd t cs start) ≤ sliceIdx t.length start + cs := by
  unfold chunkEnd
  by_cases h1 : start + (cs : Int) < (t.length : Int)
  · rw [if_pos h1]
    by_cases h2 :
        pyRfind t '.' start (start + (cs : Int)) > start + ((cs / 2 : Nat) : Int)
    · rw [if_pos h2]
      cases hL : lastIdxOf (pySlice t start (start + (cs : Int))) '.' with
      | none =>
        simp only [pyRfind, hL]
        norm_num
        unfold sliceIdx
        rw [if_neg (by omega)]
        have := Nat.min_le_left ((0 : Int)).toNat t.length
        omega
      | some j =>
        have hj := lastIdxOf_lt_length hL
        rw [length_pySlice] at hj
        have hB := sliceIdx_add_le t.length start cs
        simp only [pyRfind, hL]
        have hx : sliceIdx t.length
            (((sliceIdx t.length start : Nat) : Int) + (j : Int) + 1)
            ≤ sliceIdx t.length start + j + 1 := by
          unfold sliceIdx
          rw [if_neg (by omega)]
          have := Nat.min_le_left
            (((sliceIdx t.length start : Nat) : Int) + (j : Int) + 1).toNat t.length
          omega
        omega
    · rw [if_neg h2]; exact sliceIdx_add_le ..
  · rw [if_neg h1]; exact sliceIdx_add_le ..

theorem chunk_piece_le (t : List Char) (cs : Nat) (start : Int) :
    (stripWS (pySlice t start (chunkEnd t cs start))).length ≤ cs := by
  have h1 := stripWS_length_le (pySlice t start (chunkEnd t cs start))
  rw [length_pySlice] at h1
  have h2 := sliceIdx_chunkEnd_le t cs start
  omega

theorem chunkLoop_mem_length (t : List Char) (cs ov : Nat) :
    ∀ (fuel : Nat) (start : Int) (out : List (List Char)),
      chunkLoop t cs ov start fuel = some out → ∀ ch ∈ out, ch.length ≤ cs := by
  intro fuel
  induction fuel with
  | zero => intro start out h; exact absurd h (by simp [chunkLoop])
  | succ n ih =>
    intro start out h
    rw [chunkLoop_succ] at h
    by_cases hs : start < (t.length : Int)
    · rw [if_pos hs] at h
      have hchle : (stripWS (pySlice t start (chunkEnd t cs start))).length ≤ cs :=
        chunk_piece_le ..
      by_cases hbr : (t.length : Int) ≤ chunkEnd t cs start - (ov : Int)
      · rw [if_pos hbr] at h
        simp only [Option.map_some'] at h
        obtain rfl : (if stripWS (pySlice t start (chunkEnd t cs start)) = [] then []
            else [stripWS (pySlice t start (chunkEnd t cs start))]) = out := by
          simpa using h
        intro ch hch
        by_cases hc : stripWS (pySlice t start (chunkEnd t cs start)) = []
        · rw [if_pos hc] at hch; simp at hch
        · rw [if_neg hc] at hch
          rw [List.mem_singleton] at hch
          subst hch
          exact hchle
      · rw [if_neg hbr] at h
        cases hrec : chunkLoop t cs ov (chunkEnd t cs start - (ov : Int)) n with
        | none => rw [hrec] at h; simp at h
        | some l =>
          rw [hrec] at h
          simp only [Option.map_some'] at h
          obtain rfl : (if stripWS (pySlice t start (chunkEnd t cs start)) = [] then l
              else stripWS (pySlice t start (chunkEnd t cs start)) :: l) = out := by
            simpa using h
          intro ch hch
          by_cases hc : stripWS (pySlice t start (chunkEnd t cs start)) = []
          · rw [if_pos hc] at hch; exact ih _ _ hrec ch hch
          · rw [if_neg hc] at hch
            rcases List.mem_cons.mp hch with rfl | hch
            · exact hchle
            · exact ih _ _ hrec ch hch
    · rw [if_neg hs] at h
      obtain rfl : out = [] := by simpa using h.symm
      intro ch hch; simp at hch

theorem chunkEnd_no_dot (t : List Char) (cs : Nat) {start : Int}
    (hstart : 0 ≤ start) (hdot : '.' ∉ t) :
    chunkEnd t cs start = start + (cs : Int) := by
  simp only [chunkEnd]
  rw [pyRfind_not_mem hdot]
  have hnn : (0 : Int) ≤ ((cs / 2 : Nat) : Int) := Int.natCast_nonneg _
  have hc : ¬ ((-1 : Int) > start + ((cs / 2 : Nat) : Int)) := by omega
  by_cases h1 : start + (cs : Int) < (t.length : Int)
  · rw [if_pos h1, if_neg hc]
  · rw [if_neg h1]

theorem chunkEnd_of_last (t : List Char) (cs : Nat) (start : Int)
    (h : ¬ (start + (cs : Int) < (t.length : Int))) :
    chunkEnd t cs start = start + (cs : Int) := by
  unfold chunkEnd
  rw [if_neg h]

theorem chunkLoop_no_ws_dot (t : List Char) (cs ov : Nat) (hov : ov < cs)
    (hch : ∀ c ∈ t, ws c = false ∧ c ≠ '.') :
    ∀ (fuel s : Nat), s < t.length → t.length - s ≤ fuel →
      ∃ out, chunkLoop t cs ov (s : Int) fuel = some out ∧ out ≠ [] ∧
        recon ov out = t.drop s ∧ reconAll ov out = t.drop (s + ov) := by
  have hdot : '.' ∉ t := fun hmem => (hch _ hmem).2 rfl
  have hws : ∀ c ∈ t, ws c = false := fun c hc => (hch c hc).1
  intro fuel
  induction fuel with
  | zero => intro s h1 h2; omega
  | succ n ih =>
    intro s hs hfuel
    have hE : chunkEnd t cs (s : Int) = (s : Int) + (cs : Int) :=
      chunkEnd_no_dot t cs (Int.natCast_nonneg s) hdot
    have hcast : (s : Int) + (cs : Int) = ((s + cs : Nat) : Int) := by push_cast; ring
    have hslice : pySlice t (s : Int) ((s : Int) + (cs : Int)) = (t.drop s).take cs := by
      rw [hcast, pySlice_natCast]
      congr 1
      omega
    have hstrip : stripWS ((t.drop s).take cs) = (t.drop s).take cs :=
      stripWS_of_no_ws fun c hc =>
        hws c ((t.drop_subset s) (((t.drop s).take_subset cs) hc))
    have hchunk_ne : (t.drop s).take cs ≠ [] := by
      intro hnil
      have := congrArg List.length hnil
      simp only [List.length_take, List.length_drop, List.length_nil] at this
      omega
    rw [chunkLoop_succ, if_pos (by exact_mod_cast hs : (s : Int) < (t.length : Int)),
      hE, hslice, hstrip]
    by_cases hbr : t.length ≤ s + cs - ov
    · have hbrI : (t.length : Int) ≤ (s : Int) + (cs : Int) - (ov : Int) := by omega
      rw [if_pos hbrI]
      have htake : (t.drop s).take cs = t.drop s :=
        List.take_of_length_le (by rw [List.length_drop]; omega)
      refine ⟨[(t.drop s).take cs], ?_, by simp, ?_, ?_⟩
      · simp only [Option.map_some']
        rw [if_neg hchunk_ne]
      · show (t.drop s).take cs ++ reconAll ov [] = t.drop s
        simp [reconAll, htake]
      · show reconAll ov [(t.drop s).take cs] = t.drop (s + ov)
        simp only [reconAll, List.map_cons, List.map_nil, List.flatten_cons,
          List.flatten_nil, List.append_nil]
        rw [htake, List.drop_drop]
    · have hbrI : ¬ ((t.length : Int) ≤ (s : Int) + (cs : Int) - (ov : Int)) := by omega
      rw [if_neg hbrI]
      have hs'cast : ((s + cs - ov : Nat) : Int) = (s : Int) + (cs : Int) - (ov : Int) := by
        omega
      have hs'lt : s + cs - ov < t.length := by omega
      have hfuel' : t.length - (s + cs - ov) ≤ n := by omega
      obtain ⟨out', hout', hne', hrec', hrecAll'⟩ := ih (s + cs - ov) hs'lt hfuel'
      rw [← hs'cast, hout']
      refine ⟨(t.drop s).take cs :: out', ?_, by simp, ?_, ?_⟩
      · simp only [Option.map_some']
        rw [if_neg hchunk_ne]
      · show (t.drop s).take cs ++ reconAll ov out' = t.drop s
        rw [hrecAll', show s + cs - ov + ov = s + cs by omega,
          show s + cs = s + cs from rfl]
        rw [← List.drop_drop]
        exact List.take_append_drop cs (t.drop s)
      · show reconAll ov ((t.drop s).take cs :: out') = t.drop (s + ov)
        simp only [reconAll, List.map_cons, List.flatten_cons]
        have hflat : (out'.map (List.drop ov)).flatten = reconAll ov out' := rfl
        rw [hflat, hrecAll', show s + cs - ov + ov = s + cs by omega,
          drop_take_comm, List.drop_drop]
        have h2 : t.drop (s + cs) = (t.drop (s + ov)).drop (cs - ov) := by
          rw [List.drop_drop]
          congr 1
          omega
        rw [h2]
        exact List.take_append_drop _ _

/-! ## Helper lemmas: substring test, classifier, city extraction -/

theorem containsSub_iff (sub s : List Char) :
    containsSub sub s = true ↔ sub <:+: s := by
  induction s with
  | nil => simp [containsSub, List.isEmpty_iff, List.infix_nil]
  | cons c cs ih =>
    simp only [containsSub, Bool.or_eq_true, ih, List.infix_cons_iff,
      List.isPrefixOf_iff_prefix]

theorem pyTitle_ne_nil {l : List Char} (h : l ≠ []) : pyTitle l ≠ [] := by
  cases l with
  | nil => exact absurd rfl h
  | cons c cs => simp [pyTitle, titleAux]

theorem litCapAt_ne_nil {lit s w : List Char} (h : litCapAt lit s = some w) :
    w ≠ [] := by
  simp only [litCapAt] at h
  by_cases h1 : lit.isPrefixOf s = true
  · rw [if_pos h1] at h
    by_cases h2 : (s.drop lit.length).takeWhile isWordChar = []
    · rw [if_pos h2] at h
      exact absurd h (by simp)
    · rw [if_neg h2] at h
      obtain rfl := Option.some.inj h
      exact h2
  · rw [if_neg h1] at h
    exact absurd h (by simp)

theorem capLitAt_ne_nil {lit s w : List Char} (h : capLitAt lit s = some w) :
    w ≠ [] := by
  simp only [capLitAt] at h
  by_cases h1 : s.takeWhile isWordChar = []
  · rw [if_pos h1] at h
    exact absurd h (by simp)
  · rw [if_neg h1] at h
    by_cases h2 : lit.isPrefixOf (s.drop (s.takeWhile isWordChar).length) = true
    · rw [if_pos h2] at h
      obtain rfl := Option.some.inj h
      exact h1
    · rw [if_neg h2] at h
      exact absurd h (by simp)

theorem searchLitCap_ne_nil {lit : List Char} :
    ∀ {s w : List Char}, searchLitCap lit s = some w → w ≠ [] := by
  intro s
  induction s with
  | nil => intro w h; simp [searchLitCap] at h
  | cons c cs ih =>
    intro w h
    unfold searchLitCap at h
    cases hlc : litCapAt lit (c :: cs) with
    | some v =>
      rw [hlc] at h
      obtain rfl := Option.some.inj h
      exact litCapAt_ne_nil hlc
    | none =>
      rw [hlc] at h
      exact ih h

theorem searchCapLit_ne_nil {lit : List Char} :
    ∀ {s w : List Char}, searchCapLit lit s = some w → w ≠ [] := by
  intro s
  induction s with
  | nil => intro w h; simp [searchCapLit] at h
  | cons c cs ih =>
    intro w h
    unfold searchCapLit at h
    cases hlc : capLitAt lit (c :: cs) with
    | some v =>
      rw [hlc] at h
      obtain rfl := Option.some.inj h
      exact capLitAt_ne_nil hlc
    | none =>
      rw [hlc] at h
      exact ih h

theorem regexExtract_ne_nil {ql w : List Char} (h : regexExtract ql = some w) :
    w ≠ [] := by
  unfold regexExtract at h
  cases h1 : searchLitCap ("weather in ".toList) ql with
  | some v =>
    rw [h1] at h
    obtain rfl := Option.some.inj (by simpa [Option.orElse] using h)
    exact searchLitCap_ne_nil h1
  | none =>
    rw [h1] at h
    simp only [Option.orElse] at h
    cases h2 : searchLitCap ("temperature in ".toList) ql with
    | some v =>
      rw [h2] at h
      obtain rfl := Option.some.inj (by simpa [Option.orElse] using h)
      exact searchLitCap_ne_nil h2
    | none =>
      rw [h2] at h
      simp only [Option.orElse] at h
      cases h3 : searchLitCap ("forecast for ".toList) ql with
      | some v =>
        rw [h3] at h
        obtain rfl := Option.some.inj (by simpa [Option.orElse] using h)
        exact searchLitCap_ne_nil h3
      | none =>
        rw [h3] at h
        simp only [Option.orElse] at h
        cases h4 : searchCapLit (" weather".toList) ql with
        | some v =>
          rw [h4] at h
          obtain rfl := Option.some.inj (by simpa [Option.orElse] using h)
          exact searchCapLit_ne_nil h4
        | none =>
          rw [h4] at h
          simp only [Option.orElse] at h
          exact searchCapLit_ne_nil h

theorem indian_cities_subset : ∀ ic ∈ indian_cities, ic ∈ cities := by decide

theorem cities_ne_nil : ∀ c ∈ cities, c ≠ [] := by decide

/-! ## Helper lemmas: evaluator heuristics on degenerate inputs -/

theorem runsByAux_eq_nil {p : Char → Bool} {l : List Char}
    (h : ∀ c ∈ l, p c = false) : runsByAux p [] l = [] := by
  induction l with
  | nil => rfl
  | cons c cs ih =>
    unfold runsByAux
    rw [if_neg (by simp [h c (by simp)]), if_pos rfl]
    exact ih fun x hx => h x (by simp [hx])

theorem ws_toLower_not_word {c : Char} (h : ws c = true) :
    isWordChar (Char.toLower c) = false := by
  unfold ws Char.isWhitespace at h
  simp only [Bool.or_eq_true, decide_eq_true_eq] at h
  rcases h with ((h | h) | h) | h <;> subst h <;> decide

/-! ## Helper lemmas: the non-terminating run of claim C1 -/

theorem chunkLoop_c1_step (n : Nat) :
    chunkLoop c1Text 10 7 0 (n + 1) =
      (chunkLoop c1Text 10 7 0 n).map (fun l => "abcdef.".toList :: l) := rfl

theorem chunkLoop_c1_none : ∀ fuel, chunkLoop c1Text 10 7 0 fuel = none := by
  intro fuel
  induction fuel with
  | zero => rfl
  | succ n ih => rw [chunkLoop_c1_step, ih]; rfl

/-! ## Helper lemmas: evaluator score bounds -/

theorem evaluate_accuracy_bounds (q r qt : List Char) :
    1 ≤ evaluate_accuracy q r qt ∧ evaluate_accuracy q r qt ≤ 5 := by
  unfold evaluate_accuracy
  split_ifs <;> omega

theorem evaluate_relevance_bounds (q r qt : List Char) :
    1 ≤ evaluate_relevance q r qt ∧ evaluate_relevance q r qt ≤ 5 := by
  simp only [evaluate_relevance]
  split_ifs with h1 h2
  · omega
  · constructor
    · exact Nat.le_min.mpr ⟨by norm_num, by omega⟩
    · exact Nat.min_le_left ..
  · omega

theorem evaluate_completeness_bounds (q r qt : List Char) :
    1 ≤ evaluate_completeness q r qt ∧ evaluate_completeness q r qt ≤ 5 := by
  simp only [evaluate_completeness]
  split_ifs <;> omega

theorem evaluate_clarity_bounds (r : List Char) :
    1 ≤ evaluate_clarity r ∧ evaluate_clarity r ≤ 5 := by
  simp only [evaluate_clarity]
  split_ifs <;> decide

/-! ## The ten claims -/

/-- C1 (code bug): the claim says `chunk_text` terminates for every
`chunk_size > 0` and `overlap < chunk_size`, the window start strictly
advancing each iteration.  The code violates this: on
`chunk_text("abcdef.xxxxxxxxx", 10, 7)` the sentence shrink sets
`end = 7` (the `'.'` at index 6 is past `start + cs/2 = 5`) and then
`start = 7 - 7 = 0` again, so the start never advances, the loop never
terminates, and no amount of fuel completes it. -/
theorem chunk_text_c1_nonterminating :
    chunk_text c1Text 10 7 = none ∧
      ∀ fuel, chunkLoop c1Text 10 7 0 fuel = none := by
  constructor
  · have hnorm : normalizeText c1Text = c1Text := by decide
    unfold chunk_text
    rw [if_neg (by decide : ¬ c1Text = []), hnorm]
    exact chunkLoop_c1_none _
  · exact chunkLoop_c1_none

/-- C2 counterexample: `"hello"` has normalized length 5 ≤ chunk_size 5
(with overlap 3 < 5) and a non-empty normalization, yet `chunk_text`
returns three chunks `["hello", "llo", "o"]`, not the single normalized
text the claim demands. -/
theorem chunk_text_c2_counterexample :
    (normalizeText ("hello".toList)).length ≤ 5 ∧
    normalizeText ("hello".toList) ≠ [] ∧
    chunk_text ("hello".toList) 5 3 =
      some ["hello".toList, "llo".toList, "o".toList] ∧
    chunk_text ("hello".toList) 5 3 ≠ some [normalizeText ("hello".toList)] := by
  decide

/-- C2 (amended): `chunk_text("", _, _)` is the empty sequence, and every
text whose whitespace-normalized form is non-empty with length at most
`chunk_size - overlap` yields exactly one chunk, equal to the normalized
text.  (The claim's bound `length ≤ chunk_size` is wrong: for
`chunk_size - overlap < length ≤ chunk_size` the loop re-enters and emits
extra suffix chunks, as the counterexample shows.) -/
theorem chunk_text_c2_single_chunk (t : List Char) (cs ov : Nat) :
    chunk_text [] cs ov = some [] ∧
    (normalizeText t ≠ [] → (normalizeText t).length + ov ≤ cs →
      chunk_text t cs ov = some [normalizeText t]) := by
  constructor
  · rfl
  · intro hne hlen
    have ht : t ≠ [] := by
      intro h
      rw [h] at hne
      exact hne rfl
    unfold chunk_text
    rw [if_neg ht]
    have hlpos : 0 < (normalizeText t).length := List.length_pos.mpr hne
    rw [chunkLoop_succ,
      if_pos (by exact_mod_cast hlpos : (0 : Int) < ((normalizeText t).length : Int))]
    have hEnd : chunkEnd (normalizeText t) cs 0 = (0 : Int) + (cs : Int) :=
      chunkEnd_of_last _ cs 0 (by
        have : (normalizeText t).length ≤ cs := by omega
        omega)
    rw [hEnd]
    have hslice : pySlice (normalizeText t) ((0 : Int) + (cs : Int)) =
        fun b => pySlice (normalizeText t) (0 + (cs : Int)) b := rfl
    have hslice2 : pySlice (normalizeText t) (0 : Int) ((0 : Int) + (cs : Int)) =
        normalizeText t := by
      have h0 : ((0 : Nat) : Int) = (0 : Int) := by norm_num
      have hc : ((0 : Int) + (cs : Int)) = ((cs : Nat) : Int) := by norm_num
      rw [hc, ← h0, pySlice_natCast]
      simp only [List.drop_zero, Nat.sub_zero]
      exact List.take_of_length_le (by omega)
    rw [hslice2, stripWS_normalizeText]
    rw [if_pos (by omega : ((normalizeText t).length : Int) ≤ (0 : Int) + (cs : Int) - (ov : Int))]
    simp only [Option.map_some']
    rw [if_neg hne]

/-- C2 witness: `"hi there"` normalizes to itself (8 chars), and with
chunk_size 10, overlap 2 we have 8 + 2 ≤ 10, so exactly one chunk. -/
theorem chunk_text_c2_single_chunk_witness :
    chunk_text ("hi there".toList) 10 2 = some [normalizeText ("hi there".toList)] :=
  (chunk_text_c2_single_chunk ("hi there".toList) 10 2).2 (by decide) (by decide)

/-- C3 counterexample: `"hello"` contains no weather keyword, yet
`_classify_query` stores the string `"rag"`, not `"document"`, as the
claim asserts. -/
theorem classify_query_c3_counterexample :
    (¬ ∃ k ∈ weather_keywords, k <:+: pyLower ("hello".toList)) ∧
    classify_query ("hello".toList) ≠ "document".toList ∧
    classify_query ("hello".toList) = "rag".toList := by
  refine ⟨by decide, by decide, by decide⟩

/-- C3 (amended): `_classify_query` sets `query_type` to `"weather"`
exactly when the lower-cased text contains a keyword of the fixed weather
keyword set, and to `"rag"` (the code's label for the document branch,
not the literal `"document"`) for all other texts. -/
theorem classify_query_weather_iff (q : List Char) :
    (classify_query q = "weather".toList ↔
      ∃ k ∈ weather_keywords, k <:+: pyLower q) ∧
    (classify_query q = "rag".toList ↔
      ¬ ∃ k ∈ weather_keywords, k <:+: pyLower q) := by
  unfold classify_query
  by_cases h : weather_keywords.any (fun k => containsSub k (pyLower q)) = true
  · rw [if_pos h]
    have hex : ∃ k ∈ weather_keywords, k <:+: pyLower q := by
      obtain ⟨k, hk, hck⟩ := List.any_eq_true.mp h
      exact ⟨k, hk, (containsSub_iff k (pyLower q)).mp hck⟩
    refine ⟨⟨fun _ => hex, fun _ => rfl⟩, ⟨fun hw => ?_, fun hn => absurd hex hn⟩⟩
    exact absurd hw (by decide)
  · rw [if_neg h]
    have hnex : ¬ ∃ k ∈ weather_keywords, k <:+: pyLower q := by
      rintro ⟨k, hk, hik⟩
      exact h (List.any_eq_true.mpr ⟨k, hk, (containsSub_iff k (pyLower q)).mpr hik⟩)
    refine ⟨⟨fun hr => ?_, fun hex => absurd hex hnex⟩, ⟨fun _ => hnex, fun _ => rfl⟩⟩
    exact absurd hr (by decide)

/-- C3 witness: a keyword query is classified `"weather"`. -/
theorem classify_query_weather_iff_witness :
    classify_query ("will it rain tomorrow".toList) = "weather".toList :=
  (classify_query_weather_iff ("will it rain tomorrow".toList)).1.mpr (by decide)

/-- C4 counterexample: with chunk_size 4, overlap 1 (< 4), the normalized
text `"abc de"` chunks to `["abc", "de"]` — the per-chunk `strip()` drops
the boundary spaces — and the claimed reconstruction gives `"abce"`, not
`"abc de"`. -/
theorem chunk_text_c4_counterexample :
    chunk_text ("abc de".toList) 4 1 = some ["abc".toList, "de".toList] ∧
    recon 1 ["abc".toList, "de".toList] ≠ normalizeText ("abc de".toList) := by
  decide

/-- C4 (amended): for every non-empty text containing no whitespace and no
`'.'` (so neither per-chunk trimming nor the sentence shrink can drop or
realign characters), and every `overlap < chunk_size`, `chunk_text`
terminates and concatenating its chunks with the `overlap`-character
prefix of every chunk after the first removed reconstructs the normalized
(here: unchanged) input text. -/
theorem chunk_text_c4_roundtrip (t : List Char) (cs ov : Nat)
    (hov : ov < cs) (ht : t ≠ [])
    (hch : ∀ c ∈ t, ws c = false ∧ c ≠ '.') :
    ∃ out, chunk_text t cs ov = some out ∧ recon ov out = normalizeText t := by
  have hws : ∀ c ∈ t, ws c = false := fun c hc => (hch c hc).1
  have hnorm : normalizeText t = t := normalizeText_of_no_ws hws
  have hlpos : 0 < t.length := List.length_pos.mpr ht
  obtain ⟨out, hout, hne, hrec, -⟩ :=
    chunkLoop_no_ws_dot t cs ov hov hch (t.length + 1) 0 hlpos (by omega)
  refine ⟨out, ?_, ?_⟩
  · unfold chunk_text
    rw [if_neg ht, hnorm]
    simpa using hout
  · rw [hnorm]
    simpa using hrec

/-- C4 witness: `"abcdefgh"` with chunk_size 3, overlap 1 chunks to
`["abc", "cde", "efg", "gh"]` and reconstructs. -/
theorem chunk_text_c4_roundtrip_witness :
    ∃ out, chunk_text ("abcdefgh".toList) 3 1 = some out ∧
      recon 1 out = normalizeText ("abcdefgh".toList) :=
  chunk_text_c4_roundtrip ("abcdefgh".toList) 3 1 (by decide) (by decide) (by decide)

/-- C5: `process_query` is a total function of the query and the graph
outcome: on a successful run it returns the result dict with no error
field, and on any raised failure `e` it returns a dict embedding
`"Pipeline error: " ++ e` together with the apology response — the
failure is never propagated to the caller. -/
theorem process_query_c5_total (q : List Char)
    (invoke : AgentState → Except (List Char) AgentState) :
    (∃ s, invoke (initial_state q) = Except.ok s ∧
      process_query q invoke =
        { error := none, query := s.user_query, query_type := some s.query_type,
          response := s.response, evaluation := s.evaluation,
          weather_data := s.weather_data, retrieved_docs := s.retrieved_docs }) ∨
    (∃ e, invoke (initial_state q) = Except.error e ∧
      (process_query q invoke).error = some ("Pipeline error: ".toList ++ e) ∧
      (process_query q invoke).response =
        "Sorry, I encountered an error processing your request.".toList ∧
      (process_query q invoke).query = q) := by
  cases h : invoke (initial_state q) with
  | ok s => exact Or.inl ⟨s, rfl, by simp [process_query, h]⟩
  | error e => exact Or.inr ⟨e, rfl, by simp [process_query, h]⟩

/-- C6: for every (query, response, query_type) triple, the four
sub-scores of `evaluate_response` lie in [1, 5] and `overall_score` is
their exact arithmetic mean (as a rational, not rounded). -/
theorem evaluate_response_c6_scores (q r qt : List Char) :
    1 ≤ (evaluate_response q r qt).accuracy ∧
    (evaluate_response q r qt).accuracy ≤ 5 ∧
    1 ≤ (evaluate_response q r qt).relevance ∧
    (evaluate_response q r qt).relevance ≤ 5 ∧
    1 ≤ (evaluate_response q r qt).completeness ∧
    (evaluate_response q r qt).completeness ≤ 5 ∧
    1 ≤ (evaluate_response q r qt).clarity ∧
    (evaluate_response q r qt).clarity ≤ 5 ∧
    (evaluate_response q r qt).overall_score =
      (((evaluate_response q r qt).accuracy : ℚ) +
        ((evaluate_response q r qt).relevance : ℚ) +
        ((evaluate_response q r qt).completeness : ℚ) +
        ((evaluate_response q r qt).clarity : ℚ)) / 4 := by
  obtain ⟨ha1, ha2⟩ := evaluate_accuracy_bounds q r qt
  obtain ⟨hr1, hr2⟩ := evaluate_relevance_bounds q r qt
  obtain ⟨hc1, hc2⟩ := evaluate_completeness_bounds q r qt
  obtain ⟨hl1, hl2⟩ := evaluate_clarity_bounds r
  exact ⟨ha1, ha2, hr1, hr2, hc1, hc2, hl1, hl2, rfl⟩

/-- C7: the city used for the weather fetch is determined exactly in the
claimed order — first gazetteer substring hit (title-cased), else first
regex capture (title-cased), else the default city, `"Delhi"` when an
Indian-city token occurs in the query and `"London"` otherwise.  The
code's lower-case `"delhi"` default is unreachable: the Indian-city list
is a subset of the gazetteer, so whenever an Indian token occurs the
gazetteer already matched, and the two determinations agree on every
query. -/
theorem get_weather_city_c7_spec_order (q : List Char) :
    get_weather_city q = get_weather_city_spec q := by
  unfold get_weather_city get_weather_city_spec extract_city_from_query
  cases hf : cities.find? (fun c => containsSub c (pyLower q)) with
  | some c =>
    have hmem := List.mem_of_find?_eq_some hf
    have hne : pyTitle c ≠ [] := pyTitle_ne_nil (cities_ne_nil c hmem)
    simp only [hf]
    rw [if_pos hne]
  | none =>
    simp only [hf]
    cases hr : regexExtract (pyLower q) with
    | some w =>
      have hne : pyTitle w ≠ [] := pyTitle_ne_nil (regexExtract_ne_nil hr)
      simp only [hr]
      rw [if_pos hne]
    | none =>
      simp only [hr]
      rw [if_neg (by simp : ¬ (([] : List Char) ≠ []))]
      have hany : indian_cities.any (fun ic => containsSub ic (pyLower q)) = false := by
        rw [List.any_eq_false]
        intro ic hic
        have hmem := indian_cities_subset ic hic
        simpa using List.find?_eq_none.mp hf ic hmem
      rw [hany]
      simp

/-- C8: every chunk returned by `chunk_text` has length at most
`chunk_size` — the sentence shrink never moves the effective window end
past `start + chunk_size` characters of text, and trimming only
shortens. -/
theorem chunk_text_c8_length_le (t : List Char) (cs ov : Nat)
    (out : List (List Char)) (h : chunk_text t cs ov = some out) :
    ∀ ch ∈ out, ch.length ≤ cs := by
  unfold chunk_text at h
  by_cases ht : t = []
  · rw [if_pos ht] at h
    obtain rfl : ([] : List (List Char)) = out := Option.some.inj h
    intro ch hch
    simp at hch
  · rw [if_neg ht] at h
    exact chunkLoop_mem_length (normalizeText t) cs ov _ _ _ h

/-- C8 witness: the first chunk of `chunk_text "abcdefgh" 3 1` has length
at most 3. -/
theorem chunk_text_c8_length_le_witness : ("abc".toList).length ≤ 3 :=
  chunk_text_c8_length_le ("abcdefgh".toList) 3 1
    ["abc".toList, "cde".toList, "efg".toList, "gh".toList] (by decide)
    ("abc".toList) (by decide)

/-- C9: a non-empty all-whitespace response is scored inconsistently:
accuracy takes the empty-response floor 1 (its check strips the response
first), while relevance takes its non-empty default 3 and completeness
its short-response value 2 (their emptiness checks see the raw truthy
string). -/
theorem evaluate_c9_whitespace_response (q qt resp : List Char)
    (h1 : resp ≠ []) (h2 : ∀ c ∈ resp, ws c = true) :
    evaluate_accuracy q resp qt = 1 ∧ evaluate_relevance q resp qt = 3 ∧
      evaluate_completeness q resp qt = 2 := by
  have hstrip : stripWS resp = [] := stripWS_of_all_ws h2
  refine ⟨?_, ?_, ?_⟩
  · unfold evaluate_accuracy
    rw [if_pos (Or.inr hstrip)]
  · simp only [evaluate_relevance]
    rw [if_neg h1]
    have hwords : runsBy isWordChar (pyLower resp) = [] := by
      unfold runsBy
      apply runsByAux_eq_nil
      intro c hc
      obtain ⟨c0, hc0, rfl⟩ := List.mem_map.mp hc
      exact ws_toLower_not_word (h2 c0 hc0)
    have hzero : overlapCount q resp = 0 := by
      unfold overlapCount wordSet
      rw [hwords]
      simp
    rw [hzero]
    norm_num
  · simp only [evaluate_completeness]
    rw [if_neg h1]
    have hwc : runsBy (fun c => !ws c) resp = [] := by
      unfold runsBy
      exact runsByAux_eq_nil fun c hc => by rw [h2 c hc]; rfl
    rw [hwc]
    norm_num

/-- C9 witness: the single-space response. -/
theorem evaluate_c9_whitespace_response_witness :
    evaluate_accuracy ("hi".toList) (" ".toList) ("weather".toList) = 1 ∧
    evaluate_relevance ("hi".toList) (" ".toList) ("weather".toList) = 3 ∧
    evaluate_completeness ("hi".toList) (" ".toList) ("weather".toList) = 2 :=
  evaluate_c9_whitespace_response ("hi".toList) ("weather".toList) (" ".toList)
    (by decide) (by decide)

/-- C10: `add_documents` returns `([], [])` for the empty input — no
embedding call and no store call — and, whenever the embedding provider
returns one vector per text (its contract), it assigns exactly one fresh
id per input document, in input order. -/
theorem add_documents_c10_ids (docs : List StoreDoc)
    (embed : List (List Char) → List (List Int)) (uuid : Nat → List Char) :
    (docs = [] → add_documents docs embed uuid = ([], [])) ∧
    ((embed (docs.map (fun d => d.content))).length = docs.length →
      (add_documents docs embed uuid).1 = (List.range docs.length).map uuid ∧
      (add_documents docs embed uuid).1.length = docs.length) := by
  constructor
  · intro h
    rw [h]
    rfl
  · intro hlen
    by_cases h : docs = []
    · rw [h]
      simp [add_documents]
    · have hids : (add_documents docs embed uuid).1 =
          (List.range docs.length).map uuid := by
        unfold add_documents
        rw [if_neg h]
        simp only [List.map_map]
        have hzlen : (docs.zip (embed (docs.map fun d => d.content))).length
            = docs.length := by
          rw [List.length_zip, hlen, Nat.min_self]
        rw [List.enum_eq_zip_range, hzlen]
        show ((List.range docs.length).zip
            (docs.zip (embed (docs.map fun d => d.content)))).map
            (fun p => uuid p.1) = _
        rw [show (fun (p : Nat × (StoreDoc × List Int)) => uuid p.1)
            = uuid ∘ Prod.fst from rfl, ← List.map_map,
          List.map_fst_zip _ _ (by rw [List.length_range, hzlen])]
      refine ⟨hids, ?_⟩
      rw [hids]
      simp

/-- C10 witness: two documents, a provider returning one vector per text,
ids `"A"` and `"B"` drawn in order. -/
theorem add_documents_c10_ids_witness :
    (add_documents [⟨"a".toList, none⟩, ⟨"b".toList, none⟩]
        (fun ts => ts.map (fun _ => ([] : List Int)))
        (fun i => [Char.ofNat (65 + i)])).1
      = (List.range 2).map (fun i => [Char.ofNat (65 + i)]) :=
  ((add_documents_c10_ids [⟨"a".toList, none⟩, ⟨"b".toList, none⟩]
      (fun ts => ts.map (fun _ => ([] : List Int)))
      (fun i => [Char.ofNat (65 + i)])).2 (by decide)).1
